import Mathlib

/-
Shallow embedding of `path_helper.c` (Apple path_helper, dankegel fork).

C strings are modelled as `List Char` (the terminating NUL is implicit;
embedded NUL bytes are outside the model).  Heap allocation outcomes are
modelled by explicit `Bool` oracles: `true` means the allocation succeeds.
Fallible C functions that communicate through a possibly-NULL `char**`
return an `Option (List Char)` together with their `int` status.
-/

namespace PathHelper

/-- A C string (NUL terminator implicit). -/
abbrev CStr := List Char

/-! ## append_path_segment (path_helper.c lines 39-66) -/

/-- One step of the duplicate scan of `append_path_segment`: does `seg`
occur in `path` at index `i`, bounded on the left by the string start or a
`':'` and on the right by a `':'` or the string end?  This is the test
`(match == *path || match[-1] == ':') && (match[seglen] == ':' || match[seglen] == 0)`
performed on a `strstr` hit at offset `i`. -/
def segMatchAt (path seg : CStr) (i : Nat) : Bool :=
  decide ((path.drop i).take seg.length = seg) &&
  (decide (i = 0) || decide (path[i - 1]? = some ':')) &&
  (decide (path[i + seg.length]? = some ':') || decide (i + seg.length = path.length))

/-- The whole `strstr` loop of `append_path_segment`: is there any bounded
occurrence of `seg` in `path`?  (`strstr` enumerates every occurrence; the
loop returns as soon as one is bounded, so the loop finds a bounded
occurrence iff some index carries one.) -/
def dupMatch (path seg : CStr) : Bool :=
  (List.range (path.length + 1)).any (segMatchAt path seg)

/-- Declarative reading of the duplicate test: `seg` occurs as a whole
colon-delimited field, i.e. `path = pre ++ seg ++ post` where `pre` is empty
or ends with `':'` and `post` is empty or starts with `':'`. -/
def IsDupOcc (path seg : CStr) : Prop :=
  ∃ pre post : CStr, path = pre ++ seg ++ post ∧
    (pre = [] ∨ pre.getLast? = some ':') ∧
    (post = [] ∨ post.head? = some ':')

/-- `append_path_segment` (lines 39-66).  `allocOk` is the outcome of the
`reallocf` call (reached only when an append actually happens); `reallocf`
frees the old buffer and returns NULL on failure, hence the `(none, -1)`
result in that branch.  The first component is the value of `*path` after
the call, the second the returned `int`. -/
def append_path_segment (allocOk : Bool) (path : Option CStr) (segment : Option CStr) :
    Option CStr × Int :=
  match path, segment with
  | none, _ => (none, -1)
  | some p, none => (some p, -1)
  | some p, some s =>
    if s = [] then (some p, 0)
    else if dupMatch p s then (some p, 0)
    else if allocOk then (some (if p = [] then s else p ++ ':' :: s), 0)
    else (none, -1)

/-- Pure view of `append_path_segment` for a non-NULL path and segment when
allocation succeeds. -/
def appendSeg (p s : CStr) : CStr :=
  if s = [] then p
  else if dupMatch p s then p
  else if p = [] then s
  else p ++ ':' :: s

theorem append_path_segment_eq_appendSeg (p s : CStr) :
    append_path_segment true (some p) (some s) = (some (appendSeg p s), 0) := by
  simp only [append_path_segment, appendSeg]
  split_ifs <;> rfl

/-! ## read_segment (lines 70-100) -/

/-- `read_segment` (lines 70-100): copy the line, inserting a backslash
before each `'"'`, `'\''`, `'$'`, and stop (exclusive) at the first
newline.  The `calloc` of the output buffer is assumed to succeed (on
failure the C returns NULL and the caller's `append_path_segment` rejects
the NULL segment with `-1`). -/
def read_segment : CStr → CStr
  | [] => []
  | c :: rest =>
    if c = '"' ∨ c = '\'' ∨ c = '$' then '\\' :: c :: read_segment rest
    else if c = '\n' then []
    else c :: read_segment rest

/-- Spec-side description of the escaping: each escapable character becomes
a backslash pair, every other character is copied verbatim. -/
def escChar (c : Char) : CStr :=
  if c = '"' ∨ c = '\'' ∨ c = '$' then ['\\', c] else [c]

/-- Spec-side description of a sanitized line: escape every character. -/
def escapeAll : CStr → CStr
  | [] => []
  | c :: rest => escChar c ++ escapeAll rest

/-! ## Colon-separated fields -/

/-- Helper for `splitOnColon`: prepend a character to the first field. -/
def consHead (c : Char) : List CStr → List CStr
  | [] => [[c]]
  | f :: fs => (c :: f) :: fs

/-- The colon-delimited fields of a string (always non-empty as a list;
`splitOnColon [] = [[]]`). -/
def splitOnColon : CStr → List CStr
  | [] => [[]]
  | c :: rest => if c = ':' then [] :: splitOnColon rest else consHead c (splitOnColon rest)

/-- Join a list of fields with colons (inverse of `splitOnColon` on
non-empty lists of colon-free fields). -/
def joinColon : List CStr → CStr
  | [] => []
  | s :: rest =>
    match rest with
    | [] => s
    | _ :: _ => s ++ ':' :: joinColon rest

/-! ## Fragment directory model and fts traversal (lines 167-198) -/

/-- The `fts_info` classifications relevant to the loop in `construct_path`:
`F` regular file, `D` directory pre-order, `DP` directory post-order,
`DNR`/`NS` an unreadable or unstattable root. -/
inductive FtsInfoKind | F | D | DP | DNR
  deriving DecidableEq

/-- One `FTSENT` record as used by `construct_path`: its `fts_info`, its
`fts_level`, and its `fts_accpath` (for a fragment file, its name inside
the directory). -/
structure Ftsent where
  info : FtsInfoKind
  level : Nat
  accpath : CStr
  deriving DecidableEq

/-- A fragment file: its name and, when it can be `fopen`ed, its content as
the list of raw `fgetln` lines (each line keeps its trailing newline if it
had one; `none` models a file that cannot be opened, which
`append_path_file` reports and skips). -/
structure FragFile where
  name : CStr
  lines : Option (List CStr)
  deriving DecidableEq

/-- The fragment directory: whether it can be opened and read, and the
regular files directly inside it (in arbitrary on-disk order).
Subdirectories are not modelled: the loop issues `FTS_SKIP` on any
directory at level ≥ 1, so their contents never reach the file list. -/
structure Dir where
  ok : Bool
  files : List FragFile
  deriving DecidableEq

/-- The stream of records produced by `fts_read` for the fragment
directory, per fts semantics: `fts_open` itself does not touch the
filesystem, so an unopenable or missing directory surfaces as a single
root-level record whose `fts_info` is `FTS_DNR`/`FTS_NS` (not `FTS_F`);
a readable directory yields its pre-order record, one `FTS_F` record per
regular file at level 1, and its post-order record. -/
def ftsEntries (d : Dir) : List Ftsent :=
  if d.ok then
    Ftsent.mk .D 0 [] :: (d.files.map (fun f => Ftsent.mk .F 1 f.name) ++ [Ftsent.mk .DP 0 []])
  else [Ftsent.mk .DNR 0 []]

/-- The file-collection loop of `construct_path` (lines 182-189): keep the
`fts_accpath` of every record whose `fts_info` is `FTS_F`; everything else
is skipped (with `FTS_SKIP` for non-files at level ≥ 1). -/
def ftsCollect (d : Dir) : List CStr :=
  ((ftsEntries d).filter (fun e => decide (e.info = .F))).map (fun e => e.accpath)

/-- `strcasecmp(a, b) <= 0`: lexicographic comparison of the
`tolower`-folded characters (C `tolower` on ASCII, which is what
`Char.toLower` implements). -/
def strcasecmpLe : CStr → CStr → Bool
  | [], _ => true
  | _ :: _, [] => false
  | a :: as, b :: bs =>
    if a.toLower = b.toLower then strcasecmpLe as bs
    else decide (a.toLower < b.toLower)

/-- Insert into a sorted list (helper for `strlist_sort`). -/
def insertLe (le : CStr → CStr → Bool) (a : CStr) : List CStr → List CStr
  | [] => [a]
  | b :: bs => if le a b then a :: b :: bs else b :: insertLe le a bs

/-- Sorting by a boolean comparison (insertion sort).  Models `qsort`:
`qsort` guarantees exactly that the output is a permutation of the input
ordered by the comparator (ties in unspecified order). -/
def sortLe (le : CStr → CStr → Bool) : List CStr → List CStr
  | [] => []
  | a :: as => insertLe le a (sortLe le as)

/-- `strlist_sort` (lines 158-161): sort the collected file names with
`strcasecmp` as the comparator. -/
def strlist_sort (names : List CStr) : List CStr :=
  sortLe strcasecmpLe names

/-- Look up a fragment file's content by name: models `fopen` of
`dir_path/name` in `append_path_file` (lines 104-117); `none` means the
`fopen` fails, which is reported with `perror` and skipped. -/
def dirLookup (d : Dir) (n : CStr) : Option (List CStr) :=
  match d.files.find? (fun f => decide (f.name = n)) with
  | some f => f.lines
  | none => none

/-! ## append_path_file and construct_path (lines 104-129, 167-216) -/

/-- State threaded through a build: the accumulated `result` buffer (NULL
after an allocation failure) and the remaining allocation oracle, one
`Bool` per line append (`[]` means every further allocation succeeds). -/
abbrev BuildSt := Option CStr × List Bool

/-- `append_path_file` (lines 104-129): if the file cannot be opened,
report and return with the result untouched; otherwise append each line's
sanitized segment.  The `int` returned by `append_path_segment` is
discarded, exactly as in the C (line 125), so the loop always runs over
every line. -/
def append_path_fileF (st : BuildSt) (lines : Option (List CStr)) : BuildSt :=
  match lines with
  | none => st
  | some ls =>
    ls.foldl
      (fun st line =>
        ((append_path_segment (st.2.headD true) st.1 (some (read_segment line))).1, st.2.tail))
      st

/-- The environment-merge loop of `construct_path` (lines 200-213): the
value is cut at each `':'` (`strchr` + `*sep = 0`) and every field is
appended in order; `splitOnColon` produces exactly the successive fields
the loop passes to `append_path_segment`, whose `int` result is again
discarded. -/
def mergeEnvLoopF (st : BuildSt) (s : CStr) : BuildSt :=
  (splitOnColon s).foldl
    (fun st fld => ((append_path_segment (st.2.headD true) st.1 (some fld)).1, st.2.tail)) st

/-- Everything `construct_path` reads from the outside world for one
variable: the environment variable's value (`getenv`), the defaults file's
raw lines (`none` = cannot be opened), and the fragment directory. -/
structure BuildEnv where
  envVal : Option CStr
  defaults : Option (List CStr)
  dir : Dir
  deriving DecidableEq

/-- `construct_path` (lines 167-216) with an explicit allocation oracle:
collect the regular files of the fragment directory, sort their names with
`strcasecmp`, append the defaults file, then each fragment file in sorted
order, then each colon-separated field of the existing environment value.
The initial `calloc` of the empty result and `fts_open` itself are assumed
to succeed (each can fail only on allocation exhaustion, which the oracle
models for the appends). -/
def construct_pathF (e : BuildEnv) (al : List Bool) : BuildSt :=
  let names := strlist_sort (ftsCollect e.dir)
  let st1 := append_path_fileF (some [], al) e.defaults
  let st2 := names.foldl (fun st n => append_path_fileF st (dirLookup e.dir n)) st1
  match e.envVal with
  | none => st2
  | some s => mergeEnvLoopF st2 s

/-- `construct_path` when every allocation succeeds. -/
def construct_path (e : BuildEnv) : Option CStr :=
  (construct_pathF e []).1

/-! ## main (lines 218-256) -/

inductive Style | csh | sh
  deriving DecidableEq

/-- Substring test: models `strstr(hay, needle) != NULL`. -/
def hasSubstr (hay needle : CStr) : Bool :=
  (List.range (hay.length + 1)).any (fun i => decide ((hay.drop i).take needle.length = needle))

/-- Everything `main` reads from the outside world: the command-line
arguments after the program name, `$SHELL`, the two variables' existing
values, the two defaults files and the two fragment directories. -/
structure World where
  args : List String
  shell : Option CStr
  pathEnv : Option CStr
  manpathEnv : Option CStr
  pathsFile : Option (List CStr)
  pathsDir : Dir
  manpathsFile : Option (List CStr)
  manpathsDir : Dir

/-- The observable outcome of a run of `main`: the exit status, whether the
usage message was printed to stderr, the chosen output style, the string
printed for `PATH` (`none` = the NULL pointer resulting from an allocation
failure), and the `MANPATH` line if one is printed at all. -/
structure MainResult where
  exitCode : Nat
  usageError : Bool
  style : Style
  pathOut : Option CStr
  manOut : Option (Option CStr)
  deriving DecidableEq

/-- `main` (lines 223-256) with allocation oracles for the two builds.
More than one argument: usage message and `exit(1)`.  Otherwise the style
defaults to csh iff `$SHELL` contains `"csh"` (`strstr`), is overridden by
an exact `-c` or `-s` argument, both variables are built, `MANPATH` only
if it is set, and `main` returns 0 unconditionally. -/
def mainRunF (w : World) (alP alM : List Bool) : MainResult :=
  if 1 < w.args.length then ⟨1, true, .sh, none, none⟩
  else
    let style0 : Style :=
      match w.shell with
      | some sh => if hasSubstr sh ("csh".data) then .csh else .sh
      | none => .sh
    let style1 : Style :=
      if w.args = ["-c"] then .csh
      else if w.args = ["-s"] then .sh
      else style0
    let path := (construct_pathF ⟨w.pathEnv, w.pathsFile, w.pathsDir⟩ alP).1
    let man :=
      if w.manpathEnv.isSome then
        some (construct_pathF ⟨w.manpathEnv, w.manpathsFile, w.manpathsDir⟩ alM).1
      else none
    ⟨0, false, style1, path, man⟩

/-- A run of `main` in which every allocation succeeds. -/
def mainRun (w : World) : MainResult :=
  mainRunF w [] []

/-! ## The duplicate scan finds exactly the bounded occurrences -/

theorem dupMatch_iff_isDupOcc (path s : CStr) :
    dupMatch path s = true ↔ IsDupOcc path s := by
  constructor
  · intro h
    rcases List.any_eq_true.mp h with ⟨i, hmem, hseg⟩
    rw [List.mem_range] at hmem
    unfold segMatchAt at hseg
    simp only [Bool.and_eq_true, Bool.or_eq_true, decide_eq_true_eq] at hseg
    obtain ⟨⟨h1, h2⟩, h3⟩ := hseg
    refine ⟨path.take i, path.drop (i + s.length), ?_, ?_, ?_⟩
    · have hd : path.drop i = s ++ path.drop (i + s.length) := by
        conv_lhs => rw [← List.take_append_drop s.length (path.drop i)]
        rw [h1, List.drop_drop]
      rw [List.append_assoc]
      conv_lhs => rw [← List.take_append_drop i path, hd]
    · by_cases hi : i = 0
      · exact Or.inl (by simp [hi])
      · right
        have hc : path[i - 1]? = some ':' := h2.resolve_left hi
        have hlt : i - 1 < path.length := (List.getElem?_eq_some.mp hc).1
        have hle : i ≤ path.length := by omega
        rw [List.getLast?_eq_getElem?, List.length_take, List.getElem?_take]
        have hmin : i ⊓ path.length = i := Nat.min_eq_left hle
        rw [hmin]
        have : i - 1 < i := by omega
        simp [this, hc]
    · cases h3 with
      | inl hc => exact Or.inr (by rw [List.head?_drop]; exact hc)
      | inr hend => exact Or.inl (by rw [hend, List.drop_length])
  · rintro ⟨pre, post, hdec, hleft, hright⟩
    apply List.any_eq_true.mpr
    refine ⟨pre.length, ?_, ?_⟩
    · rw [List.mem_range, hdec]
      simp [List.length_append]
      omega
    · unfold segMatchAt
      simp only [Bool.and_eq_true, Bool.or_eq_true, decide_eq_true_eq]
      refine ⟨⟨?_, ?_⟩, ?_⟩
      · rw [hdec, List.append_assoc, List.drop_left, List.take_left]
      · cases hleft with
        | inl h0 => exact Or.inl (by simp [h0])
        | inr hc =>
          right
          have hpre : pre ≠ [] := by
            intro h0; rw [h0] at hc; simp at hc
          have hlt : pre.length - 1 < pre.length :=
            Nat.sub_lt (List.length_pos.mpr hpre) Nat.one_pos
          rw [hdec, List.append_assoc, List.getElem?_append_left hlt,
            ← List.getLast?_eq_getElem?]
          exact hc
      · cases hright with
        | inl h0 =>
          right
          rw [hdec, h0]
          simp [List.length_append]
        | inr hc =>
          left
          have : path.drop (pre.length + s.length) = post := by
            rw [hdec, ← List.length_append]
            exact List.drop_left _ _
          rw [← List.head?_drop, this]
          exact hc

/-! ## splitOnColon / joinColon machinery -/

theorem splitOnColon_ne_nil (s : CStr) : splitOnColon s ≠ [] := by
  induction s with
  | nil => simp [splitOnColon]
  | cons c rest ih =>
    simp only [splitOnColon]
    split_ifs
    · simp
    · cases h : splitOnColon rest <;> simp [consHead]

theorem colonFree_of_mem_splitOnColon (s : CStr) : ∀ f ∈ splitOnColon s, ':' ∉ f := by
  induction s with
  | nil =>
    intro f hf
    simp [splitOnColon] at hf
    simp [hf]
  | cons c rest ih =>
    intro f hf
    simp only [splitOnColon] at hf
    split_ifs at hf with hc
    · rcases List.mem_cons.mp hf with h | h
      · simp [h]
      · exact ih f h
    · rcases hsplit : splitOnColon rest with _ | ⟨f0, fs⟩
      · exact absurd hsplit (splitOnColon_ne_nil rest)
      · rw [hsplit] at hf
        simp only [consHead] at hf
        rcases List.mem_cons.mp hf with h | h
        · subst h
          intro hmem
          rcases List.mem_cons.mp hmem with h | h
          · exact hc h.symm
          · exact ih f0 (hsplit ▸ List.mem_cons_self _ _) h
        · exact ih f (hsplit ▸ List.mem_cons_of_mem _ h)

theorem splitOnColon_colonFree {a : CStr} (ha : ':' ∉ a) : splitOnColon a = [a] := by
  induction a with
  | nil => rfl
  | cons c rest ih =>
    have hc : ¬(c = ':') := fun h => ha (h ▸ List.mem_cons_self c rest)
    have ih' := ih (fun h => ha (List.mem_cons_of_mem _ h))
    simp [splitOnColon, hc, ih', consHead]

theorem splitOnColon_append_colon {a : CStr} (t : CStr) (ha : ':' ∉ a) :
    splitOnColon (a ++ ':' :: t) = a :: splitOnColon t := by
  induction a with
  | nil => simp [splitOnColon]
  | cons c rest ih =>
    have hc : ¬(c = ':') := fun h => ha (h ▸ List.mem_cons_self c rest)
    have ih' := ih (fun h => ha (List.mem_cons_of_mem _ h))
    simp [splitOnColon, hc, ih', consHead]

theorem splitOnColon_joinColon :
    ∀ {L : List CStr}, L ≠ [] → (∀ x ∈ L, ':' ∉ x) →
      splitOnColon (joinColon L) = L := by
  intro L
  induction L with
  | nil => intro h; cases h rfl
  | cons a rest ih =>
    intro _ hfree
    cases rest with
    | nil => simpa [joinColon] using splitOnColon_colonFree (hfree a (List.mem_cons_self _ _))
    | cons b r =>
      have : joinColon (a :: b :: r) = a ++ ':' :: joinColon (b :: r) := rfl
      rw [this, splitOnColon_append_colon _ (hfree a (List.mem_cons_self _ _)),
        ih (by simp) (fun x hx => hfree x (List.mem_cons_of_mem _ hx))]

theorem joinColon_concat :
    ∀ {L : List CStr}, L ≠ [] → ∀ (s : CStr),
      joinColon (L ++ [s]) = joinColon L ++ ':' :: s := by
  intro L
  induction L with
  | nil => intro h; cases h rfl
  | cons a rest ih =>
    intro _ s
    cases rest with
    | nil => simp [joinColon]
    | cons b r =>
      have h3 := ih (by simp) s
      show a ++ ':' :: joinColon (b :: (r ++ [s])) = (a ++ ':' :: joinColon (b :: r)) ++ ':' :: s
      rw [show (b :: (r ++ [s]) : List CStr) = (b :: r) ++ [s] from rfl, h3, List.append_assoc]
      rfl

theorem joinColon_ne_nil {L : List CStr} (hL : L ≠ []) (hne : ∀ x ∈ L, x ≠ []) :
    joinColon L ≠ [] := by
  cases L with
  | nil => cases hL rfl
  | cons a rest =>
    cases rest with
    | nil => exact hne a (List.mem_cons_self _ _)
    | cons b r =>
      have : joinColon (a :: b :: r) = a ++ ':' :: joinColon (b :: r) := rfl
      rw [this]
      simp

/-! ## Bounded occurrences are exactly the colon-delimited fields -/

theorem ne_nil_of_getLast?_eq_some {l : CStr} {x : Char} (h : l.getLast? = some x) :
    l ≠ [] := by
  intro hn
  rw [hn] at h
  simp at h

theorem getLast?_cons_ne_nil (c : Char) {l : CStr} (h : l ≠ []) :
    (c :: l).getLast? = l.getLast? := by
  cases l with
  | nil => cases h rfl
  | cons x xs => exact List.getLast?_cons_cons ..

theorem splitOnColon_head_decomp :
    ∀ (w : CStr) (f : CStr) (fs : List CStr), splitOnColon w = f :: fs →
      ∃ post, w = f ++ post ∧ (post = [] ∨ post.head? = some ':') := by
  intro w
  induction w with
  | nil =>
    intro f fs h
    simp [splitOnColon] at h
    exact ⟨[], by simp [h.1], Or.inl rfl⟩
  | cons c rest ih =>
    intro f fs h
    simp only [splitOnColon] at h
    split_ifs at h with hc
    · subst hc
      injection h with h1 h2
      exact ⟨':' :: rest, by simp [← h1], Or.inr rfl⟩
    · rcases hsplit : splitOnColon rest with _ | ⟨f0, fs0⟩
      · exact absurd hsplit (splitOnColon_ne_nil rest)
      · rw [hsplit] at h
        simp only [consHead] at h
        injection h with h1 h2
        rcases ih f0 fs0 hsplit with ⟨post, hpost, hb⟩
        exact ⟨post, by rw [← h1, hpost]; rfl, hb⟩

theorem mem_splitOnColon_isDupOcc :
    ∀ (w s : CStr),
      (s ∈ splitOnColon w → IsDupOcc w s) ∧
      (s ∈ (splitOnColon w).tail →
        ∃ pre post, w = pre ++ s ++ post ∧ pre.getLast? = some ':' ∧
          (post = [] ∨ post.head? = some ':')) := by
  intro w
  induction w with
  | nil =>
    intro s
    constructor
    · intro hs
      simp [splitOnColon] at hs
      exact ⟨[], [], by simp [hs], Or.inl rfl, Or.inl rfl⟩
    · intro hs
      simp [splitOnColon] at hs
  | cons c rest ih =>
    intro s
    by_cases hc : c = ':'
    · subst hc
      have hsp : splitOnColon (':' :: rest) = [] :: splitOnColon rest := by
        simp [splitOnColon]
      have lift : s ∈ splitOnColon rest →
          ∃ pre post, ':' :: rest = pre ++ s ++ post ∧ pre.getLast? = some ':' ∧
            (post = [] ∨ post.head? = some ':') := by
        intro hs
        rcases ((ih s).1 hs) with ⟨pre, post, hdec, hl, hr⟩
        refine ⟨':' :: pre, post, by simp [hdec], ?_, hr⟩
        rcases hl with h0 | hcol
        · simp [h0]
        · rw [getLast?_cons_ne_nil ':' (ne_nil_of_getLast?_eq_some hcol)]
          exact hcol
      constructor
      · intro hs
        rw [hsp] at hs
        rcases List.mem_cons.mp hs with h | h
        · exact ⟨[], ':' :: rest, by simp [h], Or.inl rfl, Or.inr rfl⟩
        · rcases lift h with ⟨pre, post, hdec, hl, hr⟩
          exact ⟨pre, post, hdec, Or.inr hl, hr⟩
      · intro hs
        rw [hsp] at hs
        exact lift hs
    · rcases hsplit : splitOnColon rest with _ | ⟨f0, fs0⟩
      · exact absurd hsplit (splitOnColon_ne_nil rest)
      have hsp : splitOnColon (c :: rest) = (c :: f0) :: fs0 := by
        simp only [splitOnColon, hc, if_false, hsplit, consHead]
      have liftTail : s ∈ fs0 →
          ∃ pre post, c :: rest = pre ++ s ++ post ∧ pre.getLast? = some ':' ∧
            (post = [] ∨ post.head? = some ':') := by
        intro hs
        have : s ∈ (splitOnColon rest).tail := by rw [hsplit]; exact hs
        rcases ((ih s).2 this) with ⟨pre, post, hdec, hl, hr⟩
        refine ⟨c :: pre, post, by simp [hdec], ?_, hr⟩
        rw [getLast?_cons_ne_nil c (ne_nil_of_getLast?_eq_some hl)]
        exact hl
      constructor
      · intro hs
        rw [hsp] at hs
        rcases List.mem_cons.mp hs with h | h
        · subst h
          rcases splitOnColon_head_decomp rest f0 fs0 hsplit with ⟨post, hpost, hb⟩
          exact ⟨[], post, by simp [hpost], Or.inl rfl, hb⟩
        · rcases liftTail h with ⟨pre, post, hdec, hl, hr⟩
          exact ⟨pre, post, hdec, Or.inr hl, hr⟩
      · intro hs
        rw [hsp] at hs
        exact liftTail hs

theorem isDupOcc_mem_splitOnColon :
    ∀ (pre : CStr) {s : CStr} (post : CStr), ':' ∉ s →
      (pre = [] ∨ pre.getLast? = some ':') → (post = [] ∨ post.head? = some ':') →
      s ∈ splitOnColon (pre ++ s ++ post) ∧
        (pre ≠ [] → s ∈ (splitOnColon (pre ++ s ++ post)).tail) := by
  intro pre
  induction pre with
  | nil =>
    intro s post hfree _ hr
    refine ⟨?_, fun h => absurd rfl h⟩
    rcases hr with h0 | hcol
    · subst h0
      simp [splitOnColon_colonFree hfree]
    · rcases post with _ | ⟨p0, prest⟩
      · simp at hcol
      · have hp0 : p0 = ':' := by simpa using hcol
        subst hp0
        simp only [List.nil_append]
        rw [splitOnColon_append_colon _ hfree]
        exact List.mem_cons_self _ _
  | cons c pre' ih =>
    intro s post hfree hl hr
    have hw : (c :: pre') ++ s ++ post = c :: (pre' ++ s ++ post) := by simp
    rcases List.eq_nil_or_concat pre' with h0 | ⟨q, a, hq⟩
    · subst h0
      have hc : c = ':' := by
        rcases hl with h | h
        · simp at h
        · simpa using h
      subst hc
      have inner := ih post hfree (Or.inl rfl) hr
      rw [hw]
      have hsp : splitOnColon (':' :: ([] ++ s ++ post)) = [] :: splitOnColon ([] ++ s ++ post) := by
        simp [splitOnColon]
      rw [hsp]
      exact ⟨List.mem_cons_of_mem _ inner.1, fun _ => inner.1⟩
    · have hpre' : pre' ≠ [] := by subst hq; simp
      have hl' : pre'.getLast? = some ':' := by
        rcases hl with h | h
        · simp at h
        · rw [getLast?_cons_ne_nil c hpre'] at h
          exact h
      have inner := ih post hfree (Or.inr hl') hr
      have htail := inner.2 hpre'
      rw [hw]
      by_cases hc : c = ':'
      · subst hc
        have hsp : splitOnColon (':' :: (pre' ++ s ++ post)) =
            [] :: splitOnColon (pre' ++ s ++ post) := by
          simp [splitOnColon]
        rw [hsp]
        exact ⟨List.mem_cons_of_mem _ inner.1, fun _ => inner.1⟩
      · rcases hsplit : splitOnColon (pre' ++ s ++ post) with _ | ⟨f0, fs0⟩
        · exact absurd hsplit (splitOnColon_ne_nil _)
        have hsp : splitOnColon (c :: (pre' ++ s ++ post)) = (c :: f0) :: fs0 := by
          simp only [splitOnColon, hc, if_false, hsplit, consHead]
        rw [hsp]
        have hmem : s ∈ fs0 := by
          rw [hsplit] at htail
          exact htail
        exact ⟨List.mem_cons_of_mem _ hmem, fun _ => hmem⟩

theorem isDupOcc_iff_mem_splitOnColon {path s : CStr} (hfree : ':' ∉ s) :
    IsDupOcc path s ↔ s ∈ splitOnColon path := by
  constructor
  · rintro ⟨pre, post, hdec, hl, hr⟩
    rw [hdec]
    exact (isDupOcc_mem_splitOnColon pre post hfree hl hr).1
  · intro h
    exact (mem_splitOnColon_isDupOcc path s).1 h

/-! ## Spec-side first-seen de-duplication (the result guarantee of §4.4) -/

/-- Spec-side append on the list of fields: drop the empty segment and any
segment already present, otherwise append at the end. -/
def addSeg (L : List CStr) (s : CStr) : List CStr :=
  if s = [] ∨ s ∈ L then L else L ++ [s]

/-- Spec-side build: the scanned segments in first-seen order, empty
segments and later duplicates dropped. -/
def dedupSegs (segs : List CStr) : List CStr :=
  segs.foldl addSeg []

theorem appendSeg_joinColon {L : List CStr} {s : CStr}
    (hfree : ∀ x ∈ L, ':' ∉ x) (hne : ∀ x ∈ L, x ≠ []) (hsfree : ':' ∉ s) :
    appendSeg (joinColon L) s = joinColon (addSeg L s) := by
  by_cases hs : s = []
  · simp [appendSeg, addSeg, hs]
  cases L with
  | nil =>
    have hdup : ¬(dupMatch ([] : CStr) s = true) := by
      rw [dupMatch_iff_isDupOcc, isDupOcc_iff_mem_splitOnColon hsfree]
      intro h
      simp [splitOnColon] at h
      exact hs h
    simp only [appendSeg, addSeg, joinColon, hs, if_neg hs]
    rw [if_neg hdup]
    simp [hs, joinColon]
  | cons a rest =>
    have hLne : (a :: rest : List CStr) ≠ [] := by simp
    have hsplit := splitOnColon_joinColon hLne hfree
    by_cases hmem : s ∈ (a :: rest)
    · have hdup : dupMatch (joinColon (a :: rest)) s = true := by
        rw [dupMatch_iff_isDupOcc, isDupOcc_iff_mem_splitOnColon hsfree, hsplit]
        exact hmem
      simp [appendSeg, addSeg, hs, hmem, hdup]
    · have hdup : ¬(dupMatch (joinColon (a :: rest)) s = true) := by
        rw [dupMatch_iff_isDupOcc, isDupOcc_iff_mem_splitOnColon hsfree, hsplit]
        exact hmem
      have hjne : joinColon (a :: rest) ≠ [] := joinColon_ne_nil hLne hne
      simp only [appendSeg, addSeg, if_neg hs, if_neg hdup, if_neg hjne,
        if_neg (by simp [hs, hmem] : ¬(s = [] ∨ s ∈ a :: rest))]
      rw [joinColon_concat hLne]

theorem foldl_appendSeg_joinColon :
    ∀ (segs : List CStr) (L : List CStr),
      (∀ x ∈ L, ':' ∉ x) → (∀ x ∈ L, x ≠ []) → (∀ x ∈ segs, ':' ∉ x) →
      segs.foldl appendSeg (joinColon L) = joinColon (segs.foldl addSeg L) := by
  intro segs
  induction segs with
  | nil => intro L _ _ _; rfl
  | cons s rest ih =>
    intro L h1 h2 h3
    have hsfree : ':' ∉ s := h3 s (List.mem_cons_self _ _)
    simp only [List.foldl_cons]
    rw [appendSeg_joinColon h1 h2 hsfree]
    refine ih (addSeg L s) ?_ ?_ (fun x hx => h3 x (List.mem_cons_of_mem _ hx))
    · intro x hx
      unfold addSeg at hx
      split_ifs at hx
      · exact h1 x hx
      · rcases List.mem_append.mp hx with h | h
        · exact h1 x h
        · rw [List.mem_singleton.mp h]
          exact hsfree
    · intro x hx
      unfold addSeg at hx
      split_ifs at hx with hcond
      · exact h2 x hx
      · rcases List.mem_append.mp hx with h | h
        · exact h2 x h
        · rw [List.mem_singleton.mp h]
          intro hnil
          exact hcond (Or.inl hnil)

/-! ## The all-allocations-succeed build as a fold of appendSeg -/

/-- The raw lines of a fragment file by name ([] when it cannot be opened:
the unreadable file contributes nothing). -/
def fileLines (d : Dir) (n : CStr) : List CStr :=
  match dirLookup d n with
  | none => []
  | some ls => ls

/-- The sanitized segments contributed by one fragment file. -/
def fileSegs (d : Dir) (n : CStr) : List CStr :=
  (fileLines d n).map read_segment

/-- The sanitized segments contributed by the defaults file. -/
def defaultSegs (e : BuildEnv) : List CStr :=
  (match e.defaults with
   | none => []
   | some ls => ls).map read_segment

/-- The colon-separated fields of the pre-existing environment value. -/
def envFields (e : BuildEnv) : List CStr :=
  match e.envVal with
  | none => []
  | some s => splitOnColon s

/-- All segments scanned by one build, in scan order: defaults-file lines,
then fragment-file lines in sorted file order, then environment fields. -/
def allSegs (e : BuildEnv) : List CStr :=
  defaultSegs e
    ++ ((strlist_sort (ftsCollect e.dir)).map (fileSegs e.dir)).flatten
    ++ envFields e

theorem append_path_fileF_pure (r : CStr) (ls : List CStr) :
    append_path_fileF (some r, ([] : List Bool)) (some ls) =
      (some ((ls.map read_segment).foldl appendSeg r), []) := by
  induction ls generalizing r with
  | nil => rfl
  | cons l rest ih =>
    have step : append_path_fileF (some r, ([] : List Bool)) (some (l :: rest)) =
        append_path_fileF (some (appendSeg r (read_segment l)), []) (some rest) := by
      simp only [append_path_fileF, List.foldl_cons, List.headD_nil, List.tail_nil,
        append_path_segment_eq_appendSeg]
    rw [step, ih]
    simp

theorem append_path_fileF_pure_opt (r : CStr) (o : Option (List CStr)) :
    append_path_fileF (some r, ([] : List Bool)) o =
      (some (((o.getD []).map read_segment).foldl appendSeg r), []) := by
  cases o with
  | none => rfl
  | some ls => exact append_path_fileF_pure r ls

theorem files_foldl_pure (names : List CStr) (d : Dir) (r : CStr) :
    names.foldl (fun st n => append_path_fileF st (dirLookup d n)) (some r, ([] : List Bool)) =
      (some (((names.map (fileSegs d)).flatten).foldl appendSeg r), []) := by
  induction names generalizing r with
  | nil => rfl
  | cons n rest ih =>
    simp only [List.foldl_cons]
    rw [append_path_fileF_pure_opt, ih]
    simp only [List.map_cons, List.flatten_cons, List.foldl_append]
    congr 2
    simp [fileSegs, fileLines]
    cases dirLookup d n <;> rfl

theorem mergeEnvLoopF_pure (r : CStr) (s : CStr) :
    mergeEnvLoopF (some r, ([] : List Bool)) s =
      (some ((splitOnColon s).foldl appendSeg r), []) := by
  unfold mergeEnvLoopF
  generalize splitOnColon s = flds
  induction flds generalizing r with
  | nil => rfl
  | cons f rest ih =>
    simp only [List.foldl_cons, List.headD_nil, List.tail_nil,
      append_path_segment_eq_appendSeg]
    exact ih _

theorem construct_path_eq_fold (e : BuildEnv) :
    construct_path e = some ((allSegs e).foldl appendSeg []) := by
  unfold construct_path construct_pathF
  dsimp only
  rw [append_path_fileF_pure_opt]
  rw [files_foldl_pure]
  have hdef : ((e.defaults.getD []).map read_segment) = defaultSegs e := by
    unfold defaultSegs
    cases e.defaults <;> rfl
  rw [hdef]
  unfold allSegs
  rcases henv : e.envVal with _ | s
  · simp only [envFields, henv, List.append_nil, List.foldl_append]
  · dsimp only
    rw [mergeEnvLoopF_pure]
    simp only [envFields, henv, List.foldl_append]

/-! ## read_segment in closed form -/

theorem read_segment_eq (l : CStr) :
    read_segment l = escapeAll (l.takeWhile (fun c => decide (c ≠ '\n'))) := by
  induction l with
  | nil => rfl
  | cons c rest ih =>
    by_cases hesc : c = '"' ∨ c = '\'' ∨ c = '$'
    · have hne : c ≠ '\n' := by rcases hesc with h | h | h <;> subst h <;> decide
      simp [read_segment, hesc, List.takeWhile_cons, hne, escapeAll, escChar, ih]
    · by_cases hnl : c = '\n'
      · subst hnl
        simp [read_segment, hesc, List.takeWhile_cons, escapeAll]
      · simp [read_segment, hesc, hnl, List.takeWhile_cons, escapeAll, escChar, ih]

/-! ## Empty fields are no-ops -/

theorem appendSeg_nil_right (r : CStr) : appendSeg r [] = r := rfl

theorem foldl_appendSeg_filter_nonempty :
    ∀ (flds : List CStr) (r : CStr),
      flds.foldl appendSeg r =
        (flds.filter (fun f => decide (f ≠ []))).foldl appendSeg r := by
  intro flds
  induction flds with
  | nil => intro r; rfl
  | cons f rest ih =>
    intro r
    by_cases hf : f = []
    · subst hf
      simp [List.foldl_cons, List.filter_cons, appendSeg_nil_right, ih]
    · simp [List.foldl_cons, List.filter_cons, hf, ih]

theorem foldl_appendSeg_all_nil :
    ∀ (flds : List CStr) (r : CStr), (∀ f ∈ flds, f = []) →
      flds.foldl appendSeg r = r := by
  intro flds
  induction flds with
  | nil => intro r _; rfl
  | cons f rest ih =>
    intro r h
    have hf : f = [] := h f (List.mem_cons_self _ _)
    subst hf
    simp only [List.foldl_cons, appendSeg_nil_right]
    exact ih r (fun f hf => h f (List.mem_cons_of_mem _ hf))

theorem splitOnColon_all_colon :
    ∀ (s : CStr), (∀ c ∈ s, c = ':') → ∀ f ∈ splitOnColon s, f = [] := by
  intro s
  induction s with
  | nil =>
    intro _ f hf
    simpa [splitOnColon] using hf
  | cons c rest ih =>
    intro h f hf
    have hc : c = ':' := h c (List.mem_cons_self _ _)
    subst hc
    simp only [splitOnColon, if_pos rfl] at hf
    rcases List.mem_cons.mp hf with h0 | h0
    · exact h0
    · exact ih (fun c hc => h c (List.mem_cons_of_mem _ hc)) f h0

/-! ## A NULL result stays NULL through the rest of the build -/

theorem append_path_fileF_none_result (o : Option (List CStr)) :
    ∀ (al : List Bool), (append_path_fileF (none, al) o).1 = none := by
  cases o with
  | none => intro al; rfl
  | some ls =>
    induction ls with
    | nil => intro al; rfl
    | cons l rest ih =>
      intro al
      exact ih al.tail

theorem mergeEnvLoopF_none_result (s : CStr) :
    ∀ (al : List Bool), (mergeEnvLoopF (none, al) s).1 = none := by
  unfold mergeEnvLoopF
  generalize splitOnColon s = flds
  induction flds with
  | nil => intro al; rfl
  | cons f rest ih =>
    intro al
    exact ih al.tail

/-! ## Insertion sort: sortedness and permutation -/

theorem mem_insertLe {le : CStr → CStr → Bool} {a x : CStr} :
    ∀ {l : List CStr}, x ∈ insertLe le a l ↔ x = a ∨ x ∈ l := by
  intro l
  induction l with
  | nil => simp [insertLe]
  | cons b bs ih =>
    simp only [insertLe]
    split_ifs
    · simp [List.mem_cons]
    · simp only [List.mem_cons, ih]
      tauto

theorem pairwise_insertLe {le : CStr → CStr → Bool}
    (htot : ∀ a b, le a b = true ∨ le b a = true)
    (htrans : ∀ a b c, le a b = true → le b c = true → le a c = true)
    {a : CStr} :
    ∀ {l : List CStr}, l.Pairwise (fun x y => le x y = true) →
      (insertLe le a l).Pairwise (fun x y => le x y = true) := by
  intro l
  induction l with
  | nil => intro _; simp [insertLe]
  | cons b bs ih =>
    intro hl
    rcases List.pairwise_cons.mp hl with ⟨hb, hbs⟩
    simp only [insertLe]
    split_ifs with hab
    · refine List.pairwise_cons.mpr ⟨?_, hl⟩
      intro y hy
      rcases List.mem_cons.mp hy with h | h
      · subst h; exact hab
      · exact htrans a b y hab (hb y h)
    · have hba : le b a = true := by
        rcases htot a b with h | h
        · exact absurd h hab
        · exact h
      refine List.pairwise_cons.mpr ⟨?_, ih hbs⟩
      intro y hy
      rcases mem_insertLe.mp hy with h | h
      · subst h; exact hba
      · exact hb y h

theorem pairwise_sortLe {le : CStr → CStr → Bool}
    (htot : ∀ a b, le a b = true ∨ le b a = true)
    (htrans : ∀ a b c, le a b = true → le b c = true → le a c = true) :
    ∀ (l : List CStr), (sortLe le l).Pairwise (fun x y => le x y = true) := by
  intro l
  induction l with
  | nil => simp [sortLe]
  | cons a as ih => exact pairwise_insertLe htot htrans ih

theorem perm_insertLe (le : CStr → CStr → Bool) (a : CStr) :
    ∀ (l : List CStr), (insertLe le a l).Perm (a :: l) := by
  intro l
  induction l with
  | nil => simp [insertLe]
  | cons b bs ih =>
    simp only [insertLe]
    split_ifs
    · exact List.Perm.refl _
    · exact (ih.cons b).trans (List.Perm.swap a b bs)

theorem perm_sortLe (le : CStr → CStr → Bool) :
    ∀ (l : List CStr), (sortLe le l).Perm l := by
  intro l
  induction l with
  | nil => simp [sortLe]
  | cons a as ih => exact (perm_insertLe le a (sortLe le as)).trans (ih.cons a)

/-! ## strcasecmp ordering is total and transitive -/

theorem strcasecmpLe_total : ∀ a b : CStr, strcasecmpLe a b = true ∨ strcasecmpLe b a = true := by
  intro a
  induction a with
  | nil => intro b; left; rfl
  | cons x xs ih =>
    intro b
    cases b with
    | nil => right; rfl
    | cons y ys =>
      by_cases hxy : x.toLower = y.toLower
      · rcases ih ys with h | h
        · left; simpa [strcasecmpLe, hxy] using h
        · right; simpa [strcasecmpLe, hxy.symm] using h
      · rcases lt_or_gt_of_ne hxy with h | h
        · left; simp [strcasecmpLe, hxy, h]
        · right
          have hyx : y.toLower ≠ x.toLower := fun hc => hxy hc.symm
          simp [strcasecmpLe, hyx, h]

theorem strcasecmpLe_trans :
    ∀ a b c : CStr, strcasecmpLe a b = true → strcasecmpLe b c = true →
      strcasecmpLe a c = true := by
  intro a
  induction a with
  | nil => intro b c _ _; rfl
  | cons x xs ih =>
    intro b c hab hbc
    cases b with
    | nil => simp [strcasecmpLe] at hab
    | cons y ys =>
      cases c with
      | nil => simp [strcasecmpLe] at hbc
      | cons z zs =>
        by_cases hxy : x.toLower = y.toLower <;> by_cases hyz : y.toLower = z.toLower
        · have hxz : x.toLower = z.toLower := hxy.trans hyz
          simp only [strcasecmpLe, if_pos hxy] at hab
          simp only [strcasecmpLe, if_pos hyz] at hbc
          simp only [strcasecmpLe, if_pos hxz]
          exact ih ys zs hab hbc
        · have hxz : ¬(x.toLower = z.toLower) := hxy ▸ hyz
          simp only [strcasecmpLe, if_neg hyz, decide_eq_true_eq] at hbc
          simp only [strcasecmpLe, if_neg hxz, decide_eq_true_eq]
          exact hxy ▸ hbc
        · have hlt : x.toLower < y.toLower := by
            simpa [strcasecmpLe, hxy] using hab
          have hxz : x.toLower < z.toLower := hyz ▸ hlt
          simp [strcasecmpLe, ne_of_lt hxz, hxz]
        · have hlt1 : x.toLower < y.toLower := by
            simpa [strcasecmpLe, hxy] using hab
          have hlt2 : y.toLower < z.toLower := by
            simpa [strcasecmpLe, hyz] using hbc
          have hxz : x.toLower < z.toLower := hlt1.trans hlt2
          simp [strcasecmpLe, ne_of_lt hxz, hxz]

/-! ## Idempotence of appendSeg -/

theorem appendSeg_idem (p s : CStr) : appendSeg (appendSeg p s) s = appendSeg p s := by
  by_cases hs : s = []
  · simp [appendSeg, hs]
  by_cases hdup : dupMatch p s = true
  · simp [appendSeg, hs, hdup]
  by_cases hp : p = []
  · subst hp
    have hdup2 : dupMatch s s = true := by
      rw [dupMatch_iff_isDupOcc]
      exact ⟨[], [], by simp, Or.inl rfl, Or.inl rfl⟩
    simp [appendSeg, hs, hdup, hdup2]
  · have hdup2 : dupMatch (p ++ ':' :: s) s = true := by
      rw [dupMatch_iff_isDupOcc]
      refine ⟨p ++ [':'], [], by simp, Or.inr (List.getLast?_concat _), Or.inl rfl⟩
    simp [appendSeg, hs, hdup, hp, hdup2]

/-! ## Claim theorems -/

/-- C6: `read_segment` inserts a backslash before every `"`, `'` and `$`,
stops copying at the first newline (exclusive), and maps empty input to the
empty segment; in particular the raw line `it's a "test" $HOME` with a
trailing newline sanitizes to `it\'s a \"test\" \$HOME` with the newline
stripped, not escaped. -/
theorem claim_C6 :
    (∀ line : CStr,
        read_segment line = escapeAll (line.takeWhile (fun c => decide (c ≠ '\n')))) ∧
    read_segment [] = [] ∧
    read_segment ("it's a \"test\" $HOME\n".data) = "it\\'s a \\\"test\\\" \\$HOME".data := by
  exact ⟨read_segment_eq, rfl, by decide⟩

/-- C8: appending the same segment twice through `append_path_segment`
yields the same path as appending it once (the second call is a successful
no-op). -/
theorem claim_C8 (p s : CStr) :
    append_path_segment true ((append_path_segment true (some p) (some s)).1) (some s) =
      ((append_path_segment true (some p) (some s)).1, 0) := by
  rw [append_path_segment_eq_appendSeg]
  show append_path_segment true (some (appendSeg p s)) (some s) = (some (appendSeg p s), 0)
  rw [append_path_segment_eq_appendSeg, appendSeg_idem]

/-- C2: for a non-empty segment, the duplicate test of
`append_path_segment` holds exactly when the segment occurs as a whole
colon-delimited field (bounded by the string start or a `:` on the left and
the string end or a `:` on the right); when it holds the append is a no-op
returning success with the path unchanged, and when no bounded occurrence
exists (e.g. the segment appears only as a proper substring of a field) the
segment is appended. -/
theorem claim_C2 (p s : CStr) (hs : s ≠ []) :
    (dupMatch p s = true ↔ IsDupOcc p s) ∧
    (dupMatch p s = true →
      ∀ ok : Bool, append_path_segment ok (some p) (some s) = (some p, 0)) ∧
    (dupMatch p s = false →
      append_path_segment true (some p) (some s) =
        (some (if p = [] then s else p ++ ':' :: s), 0)) := by
  refine ⟨dupMatch_iff_isDupOcc p s, ?_, ?_⟩
  · intro hdup ok
    simp [append_path_segment, hs, hdup]
  · intro hdup
    simp [append_path_segment, hs, hdup]

/-- C2 witness: `bin` is not a whole field of `/usr/sbin` (it occurs only
inside `sbin`), so it is appended. -/
theorem claim_C2_witness :
    ("bin".data ≠ ([] : CStr)) ∧
    dupMatch ("/usr/sbin".data) ("bin".data) = false ∧
    append_path_segment true (some ("/usr/sbin".data)) (some ("bin".data)) =
      (some ("/usr/sbin".data ++ ':' :: "bin".data), 0) := by
  refine ⟨by decide, by decide, ?_⟩
  have h := (claim_C2 ("/usr/sbin".data) ("bin".data) (by decide)).2.2 (by decide)
  rw [h]
  decide

/-- C5 as stated is false: when `reallocf` fails mid-append, the caller's
path is not left unchanged — `reallocf` frees the old buffer and the
caller's pointer becomes NULL. -/
theorem claim_C5_counterexample :
    append_path_segment false (some ['a']) (some ['b']) = (none, -1) ∧
    (append_path_segment false (some ['a']) (some ['b'])).1 ≠ some ['a'] := by
  decide

/-- C5 amended: on allocation failure the operation still fails cleanly —
the caller either sees the previous path unchanged (the no-op cases, which
never allocate) or sees the NULL sentinel together with the `-1` error;
never a partially-written string. -/
theorem claim_C5 (p s : CStr) :
    (append_path_segment false (some p) (some s)).1 = some p ∨
    append_path_segment false (some p) (some s) = (none, -1) := by
  by_cases hs : s = []
  · left; simp [append_path_segment, hs]
  by_cases hdup : dupMatch p s = true
  · left; simp [append_path_segment, hs, hdup]
  · right; simp [append_path_segment, hs, hdup]

/-- C10: the usage error occurs exactly when more than one argument is
supplied; with exactly one argument that is neither `-c` nor `-s` the
program reports no usage error, exits 0, and picks the style from whether
`$SHELL` contains the substring `csh`. -/
theorem claim_C10 :
    (∀ (w : World) (alP alM : List Bool),
        (mainRunF w alP alM).usageError = true ↔ 1 < w.args.length) ∧
    (∀ (w : World) (a : String) (alP alM : List Bool),
        w.args = [a] → a ≠ "-c" → a ≠ "-s" →
        (mainRunF w alP alM).exitCode = 0 ∧
        (mainRunF w alP alM).usageError = false ∧
        (mainRunF w alP alM).style =
          (match w.shell with
           | some sh => if hasSubstr sh ("csh".data) then Style.csh else Style.sh
           | none => Style.sh)) := by
  constructor
  · intro w alP alM
    unfold mainRunF
    split_ifs with h
    · simpa using h
    · simp [h]
  · intro w a alP alM hargs hc hsflag
    have hlen : ¬ 1 < w.args.length := by rw [hargs]; simp
    have h1 : ¬(w.args = ["-c"]) := by
      rw [hargs]
      simp [hc]
    have h2 : ¬(w.args = ["-s"]) := by
      rw [hargs]
      simp [hsflag]
    unfold mainRunF
    rw [if_neg hlen]
    refine ⟨rfl, rfl, ?_⟩
    dsimp only
    rw [if_neg h1, if_neg h2]

/-- C10 witness: one argument `-x`, `$SHELL` is `/bin/tcsh`: no usage
error, exit 0, csh style. -/
theorem claim_C10_witness :
    (mainRunF ⟨["-x"], some ("/bin/tcsh".data), none, none, some [], ⟨true, []⟩,
        none, ⟨true, []⟩⟩ [] []).exitCode = 0 ∧
    (mainRunF ⟨["-x"], some ("/bin/tcsh".data), none, none, some [], ⟨true, []⟩,
        none, ⟨true, []⟩⟩ [] []).usageError = false ∧
    (mainRunF ⟨["-x"], some ("/bin/tcsh".data), none, none, some [], ⟨true, []⟩,
        none, ⟨true, []⟩⟩ [] []).style = Style.csh := by
  have h := claim_C10.2
    ⟨["-x"], some ("/bin/tcsh".data), none, none, some [], ⟨true, []⟩, none, ⟨true, []⟩⟩
    "-x" [] [] rfl (by decide) (by decide)
  refine ⟨h.1, h.2.1, ?_⟩
  rw [h.2.2]
  decide

/-- C9: the environment merge appends exactly the non-empty colon-separated
fields of the value — every empty field (leading colon, trailing colon,
adjacent colons) is dropped by the empty-segment no-op — and a value
consisting only of colons contributes nothing to the build. -/
theorem claim_C9 :
    (∀ (r : CStr) (s : CStr),
        mergeEnvLoopF (some r, ([] : List Bool)) s =
          (some (((splitOnColon s).filter (fun f => decide (f ≠ []))).foldl appendSeg r),
            [])) ∧
    (∀ (e : BuildEnv) (s : CStr), e.envVal = some s → (∀ c ∈ s, c = ':') →
        construct_path e = construct_path ⟨none, e.defaults, e.dir⟩) := by
  constructor
  · intro r s
    rw [mergeEnvLoopF_pure, foldl_appendSeg_filter_nonempty]
  · intro e s henv hcolon
    rw [construct_path_eq_fold, construct_path_eq_fold]
    have hfields : ∀ f ∈ envFields e, f = [] := by
      intro f hf
      unfold envFields at hf
      rw [henv] at hf
      exact splitOnColon_all_colon s hcolon f hf
    have h1 : allSegs ⟨none, e.defaults, e.dir⟩ =
        defaultSegs e ++
          ((strlist_sort (ftsCollect e.dir)).map (fileSegs e.dir)).flatten ++ [] := rfl
    have h2 : allSegs e =
        defaultSegs e ++
          ((strlist_sort (ftsCollect e.dir)).map (fileSegs e.dir)).flatten ++ envFields e :=
      rfl
    rw [h2, h1, List.append_nil, List.foldl_append]
    exact congrArg some (foldl_appendSeg_all_nil _ _ hfields)

/-- C9 witness: merging the value `:::` into the path built from one
defaults line `c` leaves the result unchanged. -/
theorem claim_C9_witness :
    construct_path ⟨some (":::".data), some ["c\n".data], ⟨true, []⟩⟩ =
      construct_path ⟨none, some ["c\n".data], ⟨true, []⟩⟩ ∧
    construct_path ⟨some (":::".data), some ["c\n".data], ⟨true, []⟩⟩ = some ['c'] := by
  refine ⟨?_, by decide⟩
  exact claim_C9.2 ⟨some (":::".data), some ["c\n".data], ⟨true, []⟩⟩ (":::".data)
    rfl (by decide)

/-- C7: the fragment file list is sorted with `strcasecmp` (case-insensitive
lexicographic, not numeric) and is a permutation of the collected names;
concretely, `10-x`, `2-y`, `20-z` sort and are processed in exactly that
order, their segments appearing in that file order in the result. -/
theorem claim_C7 :
    (∀ names : List CStr,
        (strlist_sort names).Pairwise (fun a b => strcasecmpLe a b = true) ∧
        (strlist_sort names).Perm names) ∧
    strlist_sort ["2-y".data, "10-x".data, "20-z".data] =
      ["10-x".data, "2-y".data, "20-z".data] ∧
    construct_path ⟨none, some [],
      ⟨true, [⟨"2-y".data, some ["/p/two\n".data]⟩,
              ⟨"10-x".data, some ["/p/ten\n".data]⟩,
              ⟨"20-z".data, some ["/p/twenty\n".data]⟩]⟩⟩ =
      some ("/p/ten:/p/two:/p/twenty".data) := by
  refine ⟨?_, by decide, by decide⟩
  intro names
  exact ⟨pairwise_sortLe strcasecmpLe_total strcasecmpLe_trans names,
    perm_sortLe strcasecmpLe names⟩

/-- C3 as stated is false: with the fragment directory unopenable
(defaults file containing `a`, no environment value), construction is not
terminated — the path `a` is built from the defaults — and the process
exits 0 rather than aborting, because `fts_open` succeeds without touching
the filesystem and the `FTS_DNR` record is silently skipped by the
collection loop. -/
theorem claim_C3_counterexample :
    (mainRun ⟨[], none, none, none, some ["a\n".data],
        ⟨false, [⟨"f".data, some ["x\n".data]⟩]⟩, none, ⟨true, []⟩⟩).exitCode = 0 ∧
    (mainRun ⟨[], none, none, none, some ["a\n".data],
        ⟨false, [⟨"f".data, some ["x\n".data]⟩]⟩, none, ⟨true, []⟩⟩).pathOut =
      some ['a'] := by
  decide

/-- C3 amended: an unopenable fragment directory is silently treated as
empty — the build for that variable proceeds exactly as with an empty
readable directory (defaults and environment still contribute) — and for
any invocation with at most one argument the process exits 0 with no usage
error, regardless of the directory's state. -/
theorem claim_C3 (e : BuildEnv) (hdir : e.dir.ok = false) :
    (∀ al : List Bool,
        construct_pathF e al = construct_pathF ⟨e.envVal, e.defaults, ⟨true, []⟩⟩ al) ∧
    (∀ (w : World) (alP alM : List Bool), ¬ 1 < w.args.length → w.pathsDir.ok = false →
        (mainRunF w alP alM).exitCode = 0 ∧ (mainRunF w alP alM).usageError = false) := by
  constructor
  · intro al
    have hc1 : ftsCollect e.dir = [] := by
      unfold ftsCollect ftsEntries
      rw [hdir]
      rfl
    unfold construct_pathF
    dsimp only
    rw [hc1]
    rfl
  · intro w alP alM hlen _
    unfold mainRunF
    rw [if_neg hlen]
    exact ⟨rfl, rfl⟩

/-- C3 witness: concrete unopenable directory, build equals the empty-dir
build and the process exits 0. -/
theorem claim_C3_witness :
    construct_pathF ⟨none, some ["a\n".data], ⟨false, [⟨"f".data, some ["x\n".data]⟩]⟩⟩ [] =
      construct_pathF ⟨none, some ["a\n".data], ⟨true, []⟩⟩ [] ∧
    (mainRunF ⟨[], none, none, none, some ["a\n".data],
        ⟨false, [⟨"f".data, some ["x\n".data]⟩]⟩, none, ⟨true, []⟩⟩ [] []).exitCode = 0 := by
  have h := claim_C3 ⟨none, some ["a\n".data], ⟨false, [⟨"f".data, some ["x\n".data]⟩]⟩⟩ rfl
  exact ⟨h.1 [],
    (h.2 ⟨[], none, none, none, some ["a\n".data],
      ⟨false, [⟨"f".data, some ["x\n".data]⟩]⟩, none, ⟨true, []⟩⟩ [] [] (by decide) rfl).1⟩

/-- C4 as stated is false: with the defaults file holding lines `a` and
`b` and the allocation for the second append failing, the build's result
becomes NULL (the failure did happen) yet the process exits 0 — the `-1`
from `append_path_segment` is discarded by `append_path_file` and `main`
never aborts. -/
theorem claim_C4_counterexample :
    (mainRunF ⟨[], none, none, none, some ["a\n".data, "b\n".data], ⟨true, []⟩,
        none, ⟨true, []⟩⟩ [true, false] []).exitCode = 0 ∧
    (mainRunF ⟨[], none, none, none, some ["a\n".data, "b\n".data], ⟨true, []⟩,
        none, ⟨true, []⟩⟩ [true, false] []).pathOut = none := by
  decide

/-- C4 amended: an allocation failure during an append is silently ignored
by the callers — the variable's accumulated path becomes NULL and every
later append in the file loop and the environment loop leaves it NULL while
the loops still run to completion — and the process exit status is 0 for
every valid invocation whatever the allocation outcomes. -/
theorem claim_C4 :
    (∀ (o : Option (List CStr)) (al : List Bool),
        (append_path_fileF (none, al) o).1 = none) ∧
    (∀ (s : CStr) (al : List Bool), (mergeEnvLoopF (none, al) s).1 = none) ∧
    (∀ (w : World) (alP alM : List Bool), ¬ 1 < w.args.length →
        (mainRunF w alP alM).exitCode = 0) := by
  refine ⟨fun o al => append_path_fileF_none_result o al,
    fun s al => mergeEnvLoopF_none_result s al, ?_⟩
  intro w alP alM h
  unfold mainRunF
  rw [if_neg h]

/-- C4 witness: the exit code is 0 at a concrete world whose allocation
oracle fails mid-build. -/
theorem claim_C4_witness :
    (mainRunF ⟨[], none, none, none, some ["a\n".data, "b\n".data], ⟨true, []⟩,
        none, ⟨true, []⟩⟩ [true, false] []).exitCode = 0 :=
  claim_C4.2.2 ⟨[], none, none, none, some ["a\n".data, "b\n".data], ⟨true, []⟩,
    none, ⟨true, []⟩⟩ [true, false] [] (by decide)

/-- C1 as stated is false: segments are deduplicated by the whole-field
substring scan, not by equality with previously scanned segments, so a
colon-containing line changes the outcome — with defaults lines `a:a` and
`a`, first-seen deduplication predicts `a:a:a` but `construct_path`
rejects the second line as a duplicate (its field `a` is bounded inside
`a:a`) and builds `a:a`. -/
theorem claim_C1_counterexample :
    construct_path ⟨none, some ["a:a\n".data, "a\n".data], ⟨true, []⟩⟩ ≠
      some (joinColon (dedupSegs
        (allSegs ⟨none, some ["a:a\n".data, "a\n".data], ⟨true, []⟩⟩))) := by
  decide

/-- C1 amended: provided every scanned segment is colon-free (the Segment
invariant of the data model), `construct_path` returns the colon-join of
the segments in first-encountered order — defaults lines, then fragment
lines in sorted file order, then environment fields — with empty segments
and later duplicates dropped. -/
theorem claim_C1 (e : BuildEnv) (hfree : ∀ s ∈ allSegs e, ':' ∉ s) :
    construct_path e = some (joinColon (dedupSegs (allSegs e))) := by
  rw [construct_path_eq_fold]
  exact congrArg some (foldl_appendSeg_joinColon (allSegs e) [] (by simp) (by simp) hfree)

/-- C1 witness: the end-to-end example — defaults `/usr/bin`, `/bin`;
one fragment file `local` with `/usr/local/bin`, `/usr/bin`; variable
unset — builds `/usr/bin:/bin:/usr/local/bin`. -/
theorem claim_C1_witness :
    (∀ s ∈ allSegs ⟨none, some ["/usr/bin\n".data, "/bin\n".data],
        ⟨true, [⟨"local".data, some ["/usr/local/bin\n".data, "/usr/bin\n".data]⟩]⟩⟩,
      ':' ∉ s) ∧
    construct_path ⟨none, some ["/usr/bin\n".data, "/bin\n".data],
        ⟨true, [⟨"local".data, some ["/usr/local/bin\n".data, "/usr/bin\n".data]⟩]⟩⟩ =
      some (joinColon (dedupSegs (allSegs ⟨none, some ["/usr/bin\n".data, "/bin\n".data],
        ⟨true, [⟨"local".data, some ["/usr/local/bin\n".data, "/usr/bin\n".data]⟩]⟩⟩))) ∧
    construct_path ⟨none, some ["/usr/bin\n".data, "/bin\n".data],
        ⟨true, [⟨"local".data, some ["/usr/local/bin\n".data, "/usr/bin\n".data]⟩]⟩⟩ =
      some ("/usr/bin:/bin:/usr/local/bin".data) := by
  refine ⟨by decide, ?_, by decide⟩
  exact claim_C1 ⟨none, some ["/usr/bin\n".data, "/bin\n".data],
    ⟨true, [⟨"local".data, some ["/usr/local/bin\n".data, "/usr/bin\n".data]⟩]⟩⟩
    (by decide)

end PathHelper
